import Mathlib

/-!
Verification of the `undump` scanning pipeline (src/main.rs), embedded
shallowly: the `Batched` iterator adapter, the shared-cursor worker pool
with its `Stats` aggregation, the command-line entry point, the per-file
classification step `for_file`, the decode-offload channel sequencing of
`process_all`/`open_all`, and the `RefCell` borrow discipline of the
single-threaded worker executor.
-/

namespace Undump

/-! ### Batched iterator (src/main.rs: `struct Batched`, `Batched::new`,
`Batched::reload`, `impl Iterator for Batched`)

The Rust `Batched<I>` holds a `VecDeque` buffer created with a requested
capacity together with the underlying iterator.  The buffer is embedded as
a `List`, the not-yet-pulled tail of the (finite) underlying iterator as a
second `List`, and the requested capacity is the explicit parameter `cap`
of `reload` and `next`. -/

structure Batched (α : Type) where
  buf : List α
  iter : List α
  deriving DecidableEq

namespace Batched

variable {α : Type}

/-- `Batched::new`: an empty buffer in front of the underlying iterator. -/
def new (iter : List α) : Batched α := ⟨[], iter⟩

/-- `Batched::reload`: pull `capacity - buf.len()` items from the underlying
iterator into the back of the buffer. -/
def reload (cap : Nat) (s : Batched α) : Batched α :=
  let amount := cap - s.buf.length
  ⟨s.buf ++ s.iter.take amount, s.iter.drop amount⟩

/-- `VecDeque::pop_front` on the buffer. -/
def popFront : Batched α → Option α × Batched α
  | ⟨[], it⟩ => (none, ⟨[], it⟩)
  | ⟨a :: rest, it⟩ => (some a, ⟨rest, it⟩)

/-- `Batched::next` (the `Iterator` impl): pop the front of the buffer;
if that yields nothing, `reload` and pop again. -/
def next (cap : Nat) (s : Batched α) : Option α × Batched α :=
  match popFront s with
  | (some a, s2) => (some a, s2)
  | (none, _) => popFront (reload cap s)

theorem next_cons (cap : Nat) (a : α) (rest it : List α) :
    next cap ⟨a :: rest, it⟩ = (some a, ⟨rest, it⟩) := rfl

theorem next_nil (cap : Nat) (it : List α) :
    next cap ⟨[], it⟩ = popFront ⟨it.take cap, it.drop cap⟩ := rfl

/-- Repeatedly call `next`, collecting every yielded item, stopping at the
first `none` (or when the fuel runs out). -/
def drainFuel (cap : Nat) : Nat → Batched α → List α
  | 0, _ => []
  | fuel + 1, s =>
    match next cap s with
    | (some a, s2) => a :: drainFuel cap fuel s2
    | (none, _) => []

theorem drainFuel_eq_of_pos (cap : Nat) (hc : 0 < cap) :
    ∀ (fuel : Nat) (s : Batched α), s.buf.length + s.iter.length ≤ fuel →
      drainFuel cap fuel s = s.buf ++ s.iter := by
  intro fuel
  induction fuel with
  | zero =>
    intro s h
    have hb : s.buf = [] := List.eq_nil_of_length_eq_zero (by omega)
    have hi : s.iter = [] := List.eq_nil_of_length_eq_zero (by omega)
    obtain ⟨buf, iter⟩ := s
    simp only at hb hi
    subst hb hi
    simp [drainFuel]
  | succ fuel ih =>
    intro s h
    obtain ⟨buf, iter⟩ := s
    cases buf with
    | cons a rest =>
      simp only [drainFuel, next_cons]
      rw [ih ⟨rest, iter⟩ (by
        simp only [List.length_cons] at h
        simp only
        omega)]
      rfl
    | nil =>
      cases iter with
      | nil => simp [drainFuel, next_nil, popFront]
      | cons b t =>
        obtain ⟨c, rfl⟩ : ∃ c, cap = c + 1 := ⟨cap - 1, by omega⟩
        simp only [drainFuel, next_nil, List.take_succ_cons, List.drop_succ_cons,
          popFront]
        rw [ih ⟨List.take c t, List.drop c t⟩ (by
          simp only [List.length_take, List.length_drop]
          simp only [List.length_cons] at h
          omega)]
        simp

end Batched

/-- C4: for every finite underlying sequence `l` of `N` items and every
positive capacity `cap` (including `cap = 1` and `cap > N`), repeatedly
calling `next` on `Batched.new l` yields exactly the `N` items of `l` in
order and then `none`: any number `fuel ≥ N` of calls collects exactly
`l` (were an item duplicated, lost, reordered, or produced after the first
`none`, some such drain would differ from `l`). -/
theorem batched_roundtrip (cap : Nat) (hc : 0 < cap) (l : List Nat) (fuel : Nat)
    (hfuel : l.length ≤ fuel) :
    Batched.drainFuel cap fuel (Batched.new l) = l := by
  have h := Batched.drainFuel_eq_of_pos cap hc fuel (Batched.new l)
    (by simp [Batched.new]; omega)
  simpa [Batched.new] using h

theorem batched_roundtrip_witness :
    (0 < 1 ∧ [5, 6, 7].length ≤ 3 ∧
      Batched.drainFuel 1 3 (Batched.new [5, 6, 7]) = [5, 6, 7]) ∧
    (0 < 10 ∧ [5, 6, 7].length ≤ 8 ∧
      Batched.drainFuel 10 8 (Batched.new [5, 6, 7]) = [5, 6, 7]) :=
  ⟨⟨by decide, by decide, batched_roundtrip 1 (by decide) [5, 6, 7] 3 (by decide)⟩,
   ⟨by decide, by decide, batched_roundtrip 10 (by decide) [5, 6, 7] 8 (by decide)⟩⟩

/-- C5: for a `Batched` buffer with requested capacity `cap`, `next`
preserves `buf.length ≤ cap` (and `new` starts at length `0`), a `reload`
pulls at most `cap - buf.length` new items from the underlying iterator,
`next` itself never advances the underlying iterator by more than
`cap - buf.length` items, and no refill happens while the buffer is
non-empty (the underlying iterator is untouched then). -/
theorem batched_capacity_invariant (cap : Nat) (s : Batched Nat)
    (h : s.buf.length ≤ cap) :
    (Batched.new s.iter).buf.length ≤ cap ∧
    (Batched.next cap s).2.buf.length ≤ cap ∧
    s.iter.length - (Batched.next cap s).2.iter.length ≤ cap - s.buf.length ∧
    (Batched.reload cap s).buf.length ≤ cap ∧
    s.iter.length - (Batched.reload cap s).iter.length ≤ cap - s.buf.length ∧
    (s.buf ≠ [] → (Batched.next cap s).2.iter = s.iter) := by
  obtain ⟨buf, iter⟩ := s
  refine ⟨by simp [Batched.new], ?_⟩
  cases buf with
  | cons a rest =>
    simp only [Batched.next_cons, Batched.reload, List.length_cons] at h ⊢
    refine ⟨by omega, by simp, ?_, ?_, by simp⟩
    · simp only [List.length_append, List.length_take, List.length_cons]
      omega
    · simp only [List.length_drop]
      omega
  | nil =>
    simp only [Batched.next_nil, Batched.reload, List.length_nil, Nat.sub_zero,
      List.nil_append]
    have hdrop : (iter.drop cap).length = iter.length - cap := List.length_drop cap iter
    have htk : (iter.take cap).length = min cap iter.length := List.length_take cap iter
    cases htake : iter.take cap with
    | nil =>
      rw [htake] at htk
      simp only [Batched.popFront, htake, List.length_nil] at htk ⊢
      exact ⟨by omega, by omega, by omega, by omega, by simp⟩
    | cons a rest =>
      rw [htake] at htk
      simp only [Batched.popFront, htake, List.length_cons] at htk ⊢
      exact ⟨by omega, by omega, by omega, by omega, by simp⟩

theorem batched_capacity_invariant_witness :
    ([9].length ≤ 4) ∧
    ((Batched.new ([3, 4] : List Nat)).buf.length ≤ 4 ∧
      (Batched.next 4 ⟨[9], [3, 4]⟩).2.buf.length ≤ 4 ∧
      [3, 4].length - (Batched.next 4 (⟨[9], [3, 4]⟩ : Batched Nat)).2.iter.length ≤
        4 - [9].length ∧
      (Batched.reload 4 ⟨[9], [3, 4]⟩).buf.length ≤ 4 ∧
      [3, 4].length - (Batched.reload 4 (⟨[9], [3, 4]⟩ : Batched Nat)).iter.length ≤
        4 - [9].length ∧
      ([9] ≠ ([] : List Nat) →
        (Batched.next 4 (⟨[9], [3, 4]⟩ : Batched Nat)).2.iter = [3, 4])) :=
  ⟨by decide, batched_capacity_invariant 4 ⟨[9], [3, 4]⟩ (by decide)⟩

/-! ### Command-line entry point (src/main.rs: `fn main`, `Mode::from_args`,
`Mode::run`)

`main` pops the LAST argument as the target path — printing to standard
output and exiting with status 1 when there is none — and hands the
remaining arguments to `Mode::from_args`, which prints the usage line to
standard error and exits with status 1 on an unrecognised combination.
`Mode::run` in `Dir` mode propagates a `read_dir` failure as `Err`, which
`main` prints to standard error as `Fatal error: ...` and then returns
normally (process exit status 0); the recursive modes filter traversal
errors out of the walk.  The filesystem is abstracted by `dirOk`, telling
whether `std::fs::read_dir` succeeds on a path; the model records the
error-reporting surface (exit code, error lines, which scan ran), not the
timing/statistics report of a successful run. -/

inductive Mode where
  | dir (path : String)
  | openAll (path : String)
  | recurse (path : String)
  deriving DecidableEq

/-- `Mode::from_args`; `none` stands for the
`eprintln!("Call as: undump [-r] dir"); exit(1)` arm. -/
def fromArgs (path : String) (args : List String) : Option Mode :=
  match args with
  | [] => some (Mode.dir path)
  | [arg] =>
    if arg = "--recurse" ∨ arg = "-r" then some (Mode.recurse path)
    else if arg = "--open-all" ∨ arg = "-o" then some (Mode.openAll path)
    else none
  | _ => none

/-- Observable outcome of one invocation of the process. -/
structure MainOutcome where
  exitCode : Nat
  stdoutLines : List String
  stderrLines : List String
  ran : Option Mode
  deriving DecidableEq

def usageLine : String := "Call as: undump [-r] dir"

def missingDirLine : String := "Please provide a target directory to recurse"

def fatalLine : String := "Fatal error: ..."

/-- `fn main`: pop the last argument as the path, parse the rest,
run the mode, and print a run-time error (if any) without changing the
exit status. -/
def mainModel (args : List String) (dirOk : String → Bool) : MainOutcome :=
  match args.getLast? with
  | none => ⟨1, [missingDirLine], [], none⟩
  | some path =>
    match fromArgs path args.dropLast with
    | none => ⟨1, [], [usageLine], none⟩
    | some (Mode.dir p) =>
      if dirOk p then ⟨0, [], [], some (Mode.dir p)⟩
      else ⟨0, [], [fatalLine], none⟩
    | some (Mode.recurse p) => ⟨0, [], [], some (Mode.recurse p)⟩
    | some (Mode.openAll p) => ⟨0, [], [], some (Mode.openAll p)⟩

/-- C7, as stated, is false: the missing-directory message goes to standard
output (not the error stream), and an invalid target path in directory mode
leaves the exit status 0 (the `Err` from `read_dir` is only printed). -/
theorem fatal_usage_cex :
    ((mainModel [] (fun _ => true)).exitCode = 1 ∧
      (mainModel [] (fun _ => true)).stderrLines = [] ∧
      (mainModel [] (fun _ => true)).stdoutLines = [missingDirLine]) ∧
    ((mainModel ["d"] (fun _ => false)).exitCode = 0 ∧
      (mainModel ["d"] (fun _ => false)).stderrLines = [fatalLine]) :=
  ⟨⟨rfl, rfl, rfl⟩, ⟨rfl, rfl⟩⟩

/-- C7 amended: an unrecognized argument combination terminates with
status 1 and the usage line on the error stream; a missing directory
argument terminates with status 1 but prints its message to standard
output; an invalid target path never yields a non-zero status — in
directory mode the failure is reported on the error stream as a fatal
error with exit status 0, and in recursive mode the run proceeds
normally regardless of the path. -/
theorem fatal_usage_amended (dirOk : String → Bool) :
    (∀ path rest, fromArgs path rest = none →
      mainModel (rest ++ [path]) dirOk = ⟨1, [], [usageLine], none⟩) ∧
    (mainModel [] dirOk = ⟨1, [missingDirLine], [], none⟩) ∧
    (∀ p, dirOk p = false → mainModel [p] dirOk = ⟨0, [], [fatalLine], none⟩) ∧
    (∀ p, mainModel ["-r", p] dirOk = ⟨0, [], [], some (Mode.recurse p)⟩) := by
  refine ⟨?_, rfl, ?_, ?_⟩
  · intro path rest hnone
    simp only [mainModel, List.getLast?_concat, List.dropLast_concat, hnone]
  · intro p hp
    have h1 : mainModel [p] dirOk =
        if dirOk p = true then ⟨0, [], [], some (Mode.dir p)⟩
        else ⟨0, [], [fatalLine], none⟩ := rfl
    rw [h1, hp]
    simp
  · intro p
    rfl

theorem fatal_usage_amended_witness :
    (fromArgs "-r" ["bogus"] = none →
      mainModel (["bogus"] ++ ["-r"]) (fun _ => true) = ⟨1, [], [usageLine], none⟩) ∧
    mainModel ["d"] (fun _ => false) = ⟨0, [], [fatalLine], none⟩ :=
  ⟨fun h => (fatal_usage_amended (fun _ => true)).1 "-r" ["bogus"] h,
   (fatal_usage_amended (fun _ => false)).2.2.1 "d" rfl⟩

/-- C9: the target directory is the last argument, so a mode flag after the
directory makes the flag the path and the directory an unrecognized
argument: `["dir", "-r"]` is a usage error (status 1, usage line on the
error stream, no scan), while `["-r", "dir"]` runs the recursive scan. -/
theorem path_is_last_argument (dirOk : String → Bool) :
    mainModel ["dir", "-r"] dirOk = ⟨1, [], [usageLine], none⟩ ∧
    mainModel ["-r", "dir"] dirOk = ⟨0, [], [], some (Mode.recurse "dir")⟩ :=
  ⟨rfl, rfl⟩

theorem path_is_last_argument_witness :
    mainModel ["dir", "-r"] (fun _ => true) = ⟨1, [], [usageLine], none⟩ ∧
    mainModel ["-r", "dir"] (fun _ => true) =
      ⟨0, [], [], some (Mode.recurse "dir")⟩ :=
  path_is_last_argument (fun _ => true)

/-! ### Per-file classification (src/main.rs: `for_file`)

`for_file` opens the file (returning early on open failure), zero-fills a
512-byte buffer, performs `read_exact` whose `Result` is discarded
(`let _ = file.read_exact(&mut buffer).await;`), so on a short or failed
read the buffer holds whatever bytes were read padded by the initial
zeros, and then guesses the format from that 512-byte buffer, bumping the
per-format count on success.  The filesystem is abstracted as byte
contents per path (`none` = open failure) and the `image` crate sniffer as
an opaque `guess` over the buffer; the `Stats.count` map is abstracted as
the multiset of recorded format tags (one occurrence per `add`). -/

def headerSize : Nat := 512

/-- The buffer after `read_exact` on a file with the given contents: the
bytes that could be read, zero-padded to 512 (the read outcome itself is
ignored by the code). -/
def headerBuffer (contents : List Nat) : List Nat :=
  contents.take headerSize ++ List.replicate (headerSize - contents.length) 0

/-- The effect of `for_file` on the per-format counts. -/
def forFile {Path Fmt : Type} (fsys : Path → Option (List Nat))
    (guess : List Nat → Option Fmt) (path : Path) (counts : Multiset Fmt) :
    Multiset Fmt :=
  match fsys path with
  | none => counts
  | some contents =>
    match guess (headerBuffer contents) with
    | some f => f ::ₘ counts
    | none => counts

/-- C6, as stated, is false: a file shorter than 512 bytes is not skipped —
`for_file` ignores the `read_exact` result and still classifies the
zero-padded buffer, so a short file whose leading bytes the sniffer
recognizes does contribute to `counts` (here a 2-byte file is recorded). -/
theorem short_read_skipped_cex :
    ([7, 7].length < headerSize) ∧
    forFile (fun _ : Nat => some [7, 7])
      (fun b => if b.take 2 = [7, 7] then some 3 else none) 0
      (0 : Multiset Nat) = {3} :=
  ⟨by decide, rfl⟩

/-- C6 amended: a file that fails to open is skipped and never contributes
to `counts`; a file whose header read fails or returns fewer than 512
bytes is still classified, on its contents zero-padded to 512 bytes, and
contributes one increment to `counts` exactly when that classification
succeeds — it is omitted from `counts` only when the sniffer rejects the
padded buffer. -/
theorem short_read_amended {Path Fmt : Type} (fsys : Path → Option (List Nat))
    (guess : List Nat → Option Fmt) (p : Path) (counts : Multiset Fmt) :
    (fsys p = none → forFile fsys guess p counts = counts) ∧
    (∀ c, fsys p = some c → c.length < headerSize →
      forFile fsys guess p counts =
        match guess (c ++ List.replicate (headerSize - c.length) 0) with
        | some f => f ::ₘ counts
        | none => counts) ∧
    (∀ c, fsys p = some c → guess (headerBuffer c) = none →
      forFile fsys guess p counts = counts) := by
  refine ⟨?_, ?_, ?_⟩
  · intro h
    simp [forFile, h]
  · intro c hc hlen
    have htake : c.take headerSize = c := List.take_of_length_le (by omega)
    simp [forFile, hc, headerBuffer, htake]
  · intro c hc hguess
    simp [forFile, hc, hguess]

theorem short_read_amended_witness :
    ((fun _ : Nat => (none : Option (List Nat))) 0 = none →
      forFile (fun _ : Nat => (none : Option (List Nat)))
        (fun _ => (none : Option Nat)) 0 0 = 0) ∧
    forFile (fun _ : Nat => (none : Option (List Nat)))
      (fun _ => (none : Option Nat)) 0 0 = 0 :=
  ⟨(short_read_amended (fun _ => none) (fun _ => none) 0 0).1,
   (short_read_amended (fun _ => none) (fun _ => none) 0 0).1 rfl⟩

/-! ### Shared cursor, worker pool and statistics (src/main.rs:
`process_all`, `read_files`, `impl Stats`)

`process_all` wraps the path iterator in a `RefCell` and runs `1 << 10`
`read_files` workers on a single-threaded executor.  Each worker loops:
`supplier.borrow_mut().next()` followed immediately — with no await point
in between — by `stats.file()`, one atomic step of the cooperative
scheduler; it then awaits `for_file`, whose classification updates
`stats.count` in a later atomic step.  The model is a small-step system
over all interleavings of these atomic steps: `pull` hands the head of the
remaining paths to a worker and bumps `total`, leaving the `for_file` call
pending; `classified` completes the pending call, recording at most one
format tag; `exhaust` lets a worker observe `None` and terminate.
`classify` abstracts the composite open/read/sniff outcome for a path
(`none` = any per-file failure), and `Stats.count` is abstracted as the
multiset of recorded tags. -/

inductive WorkerState (Path : Type) where
  | idle
  | pending (p : Path)
  | finished
  deriving DecidableEq

/-- `Stats::add`, applied to the optional classification outcome. -/
def recordTag {Fmt : Type} (t : Option Fmt) (counts : Multiset Fmt) :
    Multiset Fmt :=
  match t with
  | some f => f ::ₘ counts
  | none => counts

/-- Joint state of the shared cursor (`rem`), the `W` workers, the paths
each worker has pulled, and the `Stats` cell/map. -/
structure ScanState (W : Nat) (Path Fmt : Type) where
  rem : List Path
  workers : Fin W → WorkerState Path
  pulledBy : Fin W → List Path
  total : Nat
  counts : Multiset Fmt

/-- Start of `process_all`: full path sequence, all workers idle,
`Stats::default()`. -/
def initScan (W : Nat) {Path Fmt : Type} (paths : List Path) :
    ScanState W Path Fmt :=
  ⟨paths, fun _ => .idle, fun _ => [], 0, 0⟩

/-- One atomic step of the cooperative executor. -/
inductive ScanStep {W : Nat} {Path Fmt : Type} (classify : Path → Option Fmt) :
    ScanState W Path Fmt → ScanState W Path Fmt → Prop where
  | pull (s : ScanState W Path Fmt) (w : Fin W) (p : Path) (rest : List Path)
      (hidle : s.workers w = .idle) (hrem : s.rem = p :: rest) :
      ScanStep classify s
        ⟨rest, Function.update s.workers w (.pending p),
         Function.update s.pulledBy w (s.pulledBy w ++ [p]),
         s.total + 1, s.counts⟩
  | exhaust (s : ScanState W Path Fmt) (w : Fin W)
      (hidle : s.workers w = .idle) (hrem : s.rem = []) :
      ScanStep classify s
        ⟨[], Function.update s.workers w .finished, s.pulledBy,
         s.total, s.counts⟩
  | classified (s : ScanState W Path Fmt) (w : Fin W) (p : Path)
      (hpend : s.workers w = .pending p) :
      ScanStep classify s
        ⟨s.rem, Function.update s.workers w .idle, s.pulledBy,
         s.total, recordTag (classify p) s.counts⟩

/-- States reachable by any interleaving of worker steps from the start of
a run over `paths`. -/
def ScanReach {W : Nat} {Path Fmt : Type} (classify : Path → Option Fmt)
    (paths : List Path) (s : ScanState W Path Fmt) : Prop :=
  Relation.ReflTransGen (ScanStep classify) (initScan W paths) s

theorem comp_update {W : Nat} {β γ : Type} (g : β → γ) (f : Fin W → β)
    (w : Fin W) (v : β) :
    (fun x => g (Function.update f w v x)) =
      Function.update (fun x => g (f x)) w (g v) := by
  funext x
  by_cases hx : x = w
  · subst hx
    simp
  · simp [Function.update_noteq hx]

theorem sum_update_swap {W : Nat} {M : Type} [AddCommMonoid M]
    (f : Fin W → M) (w : Fin W) (v : M) :
    (∑ x, Function.update f w v x) + f w = (∑ x, f x) + v := by
  rw [Finset.sum_update_of_mem (Finset.mem_univ w),
    Finset.sum_eq_sum_diff_singleton_add (Finset.mem_univ w) f]
  abel

theorem sum_comp_update {W : Nat} {β M : Type} [AddCommMonoid M]
    (g : β → M) (f : Fin W → β) (w : Fin W) (v : β) :
    (∑ x, g (Function.update f w v x)) + g (f w) = (∑ x, g (f x)) + g v := by
  rw [comp_update g f w v]
  exact sum_update_swap (fun x => g (f x)) w (g v)

theorem scan_multiset_step {W : Nat} {Path Fmt : Type}
    {classify : Path → Option Fmt} {s s2 : ScanState W Path Fmt}
    (hstep : ScanStep classify s s2) :
    (↑s2.rem + ∑ w, (↑(s2.pulledBy w) : Multiset Path))
      = ↑s.rem + ∑ w, (↑(s.pulledBy w) : Multiset Path) := by
  cases hstep with
  | pull w p rest hidle hrem =>
    dsimp only
    have h1 := sum_comp_update (fun l : List Path => (↑l : Multiset Path))
      s.pulledBy w (s.pulledBy w ++ [p])
    have hco : (↑(s.pulledBy w ++ [p]) : Multiset Path)
        = ↑(s.pulledBy w) + {p} := by
      rw [← Multiset.coe_singleton, Multiset.coe_add]
    rw [hco] at h1
    have h2 : (∑ x, (↑(Function.update s.pulledBy w (s.pulledBy w ++ [p]) x) :
        Multiset Path)) = (∑ x, (↑(s.pulledBy x) : Multiset Path)) + {p} := by
      apply add_right_cancel (b := (↑(s.pulledBy w) : Multiset Path))
      rw [h1]
      abel
    rw [h2, hrem]
    have hpc : ((p :: rest : List Path) : Multiset Path) = {p} + ↑rest := by
      rw [← Multiset.cons_coe, ← Multiset.singleton_add]
    rw [hpc]
    abel
  | exhaust w hidle hrem =>
    dsimp only
    rw [hrem]
  | classified w p hpend => rfl

theorem scan_multiset_inv {W : Nat} {Path Fmt : Type}
    (classify : Path → Option Fmt) (paths : List Path)
    (s : ScanState W Path Fmt) (h : ScanReach classify paths s) :
    (paths : Multiset Path) = ↑s.rem + ∑ w, (↑(s.pulledBy w) : Multiset Path) := by
  induction h with
  | refl => simp [initScan]
  | tail _ hstep ih =>
    rw [scan_multiset_step hstep]
    exact ih

theorem scan_total_step {W : Nat} {Path Fmt : Type}
    {classify : Path → Option Fmt} {s s2 : ScanState W Path Fmt}
    (hstep : ScanStep classify s s2) :
    s2.total + s2.rem.length = s.total + s.rem.length := by
  cases hstep with
  | pull w p rest hidle hrem =>
    dsimp only
    rw [hrem]
    simp only [List.length_cons]
    omega
  | exhaust w hidle hrem =>
    dsimp only
    rw [hrem]
  | classified w p hpend => rfl

theorem scan_total_inv {W : Nat} {Path Fmt : Type}
    (classify : Path → Option Fmt) (paths : List Path)
    (s : ScanState W Path Fmt) (h : ScanReach classify paths s) :
    s.total + s.rem.length = paths.length := by
  induction h with
  | refl => simp [initScan]
  | tail _ hstep ih =>
    rw [scan_total_step hstep]
    exact ih

theorem scan_finished_step {W : Nat} {Path Fmt : Type}
    {classify : Path → Option Fmt} {s s2 : ScanState W Path Fmt}
    (hstep : ScanStep classify s s2)
    (ih : (∃ w, s.workers w = .finished) → s.rem = [])
    (hfin : ∃ w, s2.workers w = .finished) : s2.rem = [] := by
  cases hstep with
  | pull w p rest hidle hrem =>
    obtain ⟨w2, hw2⟩ := hfin
    dsimp only at hw2 ⊢
    by_cases hww : w2 = w
    · subst hww
      rw [Function.update_same] at hw2
      cases hw2
    · rw [Function.update_noteq hww] at hw2
      have h0 := ih ⟨w2, hw2⟩
      rw [hrem] at h0
      cases h0
  | exhaust w hidle hrem => rfl
  | classified w p hpend =>
    obtain ⟨w2, hw2⟩ := hfin
    dsimp only at hw2 ⊢
    by_cases hww : w2 = w
    · subst hww
      rw [Function.update_same] at hw2
      cases hw2
    · rw [Function.update_noteq hww] at hw2
      exact ih ⟨w2, hw2⟩

theorem scan_finished_rem {W : Nat} {Path Fmt : Type}
    (classify : Path → Option Fmt) (paths : List Path)
    (s : ScanState W Path Fmt) (h : ScanReach classify paths s) :
    (∃ w, s.workers w = .finished) → s.rem = [] := by
  induction h with
  | refl =>
    intro hfin
    obtain ⟨w, hw⟩ := hfin
    simp [initScan] at hw
  | tail _ hstep ih => exact scan_finished_step hstep ih

/-- Weight of a worker holding a path pulled but not yet classified. -/
def pendWeight {Path : Type} : WorkerState Path → Nat
  | .pending _ => 1
  | _ => 0

theorem pendWeight_idle {Path : Type} :
    pendWeight (WorkerState.idle : WorkerState Path) = 0 := rfl

theorem pendWeight_finished {Path : Type} :
    pendWeight (WorkerState.finished : WorkerState Path) = 0 := rfl

theorem pendWeight_pending {Path : Type} (p : Path) :
    pendWeight (.pending p) = 1 := rfl

theorem recordTag_card_le {Fmt : Type} (t : Option Fmt) (c : Multiset Fmt) :
    Multiset.card (recordTag t c) ≤ Multiset.card c + 1 := by
  cases t with
  | none => simp [recordTag]
  | some f => simp [recordTag]

theorem scan_card_step {W : Nat} {Path Fmt : Type}
    {classify : Path → Option Fmt} {s s2 : ScanState W Path Fmt}
    (hstep : ScanStep classify s s2)
    (ih : Multiset.card s.counts + (∑ w, pendWeight (s.workers w)) ≤ s.total) :
    Multiset.card s2.counts + (∑ w, pendWeight (s2.workers w)) ≤ s2.total := by
  cases hstep with
  | pull w p rest hidle hrem =>
    dsimp only
    have h1 := sum_comp_update pendWeight s.workers w
      (WorkerState.pending p)
    rw [hidle, pendWeight_idle, pendWeight_pending] at h1
    omega
  | exhaust w hidle hrem =>
    dsimp only
    have h1 := sum_comp_update pendWeight s.workers w
      (WorkerState.finished : WorkerState Path)
    rw [hidle, pendWeight_idle, pendWeight_finished] at h1
    omega
  | classified w p hpend =>
    dsimp only
    have h1 := sum_comp_update pendWeight s.workers w
      (WorkerState.idle : WorkerState Path)
    rw [hpend, pendWeight_pending, pendWeight_idle] at h1
    have hcard := recordTag_card_le (classify p) s.counts
    omega

theorem scan_card_inv {W : Nat} {Path Fmt : Type}
    (classify : Path → Option Fmt) (paths : List Path)
    (s : ScanState W Path Fmt) (h : ScanReach classify paths s) :
    Multiset.card s.counts + (∑ w, pendWeight (s.workers w)) ≤ s.total := by
  induction h with
  | refl => simp [initScan, pendWeight]
  | tail _ hstep ih => exact scan_card_step hstep ih

/-- C1: under concurrent pulling by any positive number `W` of workers from
the `RefCell`-guarded shared iterator, once every worker has observed
`None` and terminated, the multiset of paths handed out across all workers
equals the multiset of the underlying path sequence — each path went to
exactly one worker, none duplicated, none lost (this holds for every
interleaving of the workers' atomic steps). -/
theorem shared_cursor_exclusive {W : Nat} {Path Fmt : Type}
    (classify : Path → Option Fmt) (paths : List Path)
    (s : ScanState W Path Fmt) (hW : 0 < W)
    (h : ScanReach classify paths s)
    (hdone : ∀ w, s.workers w = .finished) :
    (∑ w, (↑(s.pulledBy w) : Multiset Path)) = ↑paths := by
  have hrem : s.rem = [] :=
    scan_finished_rem classify paths s h ⟨⟨0, hW⟩, hdone ⟨0, hW⟩⟩
  have hms := scan_multiset_inv classify paths s h
  rw [hrem] at hms
  simpa using hms.symm

/-- C2: in any run (offload plays no part in `Stats.total`), once every
worker has terminated, the reported `total` equals exactly the number of
paths yielded by the path source, independently of the per-path
open/read/classify outcomes — `Stats::file()` runs exactly once per pulled
path, at pull time, before any classification. -/
theorem total_counts_all_paths {W : Nat} {Path Fmt : Type}
    (classify : Path → Option Fmt) (paths : List Path)
    (s : ScanState W Path Fmt) (hW : 0 < W)
    (h : ScanReach classify paths s)
    (hdone : ∀ w, s.workers w = .finished) :
    s.total = paths.length := by
  have hrem : s.rem = [] :=
    scan_finished_rem classify paths s h ⟨⟨0, hW⟩, hdone ⟨0, hW⟩⟩
  have htot := scan_total_inv classify paths s h
  rw [hrem] at htot
  simpa using htot

/-- C3: at every point of every run — every state reachable by any
interleaving — the statistics satisfy `total ≥ sum of the per-format
counts`: each pulled path bumps `total` exactly once at pull time and adds
at most one occurrence to `counts` (only when classification succeeds),
and no step ever removes from `counts` or decreases `total`. -/
theorem total_ge_sum_counts {W : Nat} {Path Fmt : Type}
    (classify : Path → Option Fmt) (paths : List Path)
    (s : ScanState W Path Fmt) (h : ScanReach classify paths s) :
    Multiset.card s.counts ≤ s.total := by
  have := scan_card_inv classify paths s h
  omega

/-- A concrete full run used by the witnesses: one worker, one path `4`
classified as format `9`; the worker pulls, classifies, then observes
`None` and terminates. -/
def classifyEx : Nat → Option Nat := fun _ => some 9

def scanExFinal : ScanState 1 Nat Nat :=
  ⟨[],
   Function.update (Function.update (Function.update
     (fun _ => WorkerState.idle) 0 (WorkerState.pending 4)) 0
     WorkerState.idle) 0 WorkerState.finished,
   Function.update (fun _ => []) 0 [4], 1, {9}⟩

theorem scanExFinal_reach : ScanReach classifyEx [4] scanExFinal :=
  Relation.ReflTransGen.head
    (ScanStep.pull (initScan 1 [4]) 0 4 [] rfl rfl)
    (Relation.ReflTransGen.head
      (ScanStep.classified _ 0 4 (by decide))
      (Relation.ReflTransGen.single
        (ScanStep.exhaust _ 0 (by decide) rfl)))

theorem shared_cursor_exclusive_witness :
    (0 < 1 ∧ (∀ w : Fin 1, scanExFinal.workers w = WorkerState.finished)) ∧
    (∑ w : Fin 1, (↑(scanExFinal.pulledBy w) : Multiset Nat)) = ↑[4] :=
  ⟨⟨Nat.one_pos, by decide⟩,
   shared_cursor_exclusive classifyEx [4] scanExFinal Nat.one_pos
     scanExFinal_reach (by decide)⟩

theorem total_counts_all_paths_witness :
    (0 < 1 ∧ (∀ w : Fin 1, scanExFinal.workers w = WorkerState.finished)) ∧
    scanExFinal.total = [4].length :=
  ⟨⟨Nat.one_pos, by decide⟩,
   total_counts_all_paths classifyEx [4] scanExFinal Nat.one_pos
     scanExFinal_reach (by decide)⟩

theorem total_ge_sum_counts_witness :
    Multiset.card scanExFinal.counts ≤ scanExFinal.total :=
  total_ge_sum_counts classifyEx [4] scanExFinal scanExFinal_reach

/-! ### Offload channel sequencing (src/main.rs: `process_all`, `open_all`)

With offload enabled, `process_all` creates an `mpsc::channel(16)`, spawns
`open_all` on a new OS thread whose `JoinHandle` is discarded
(`std::thread::spawn(move || open_all(receiver));` — never joined), clones
the sender into every worker, awaits the join-all barrier of
`FuturesUnordered`, then flushes and drops the last sender (closing the
channel), prints the report and returns — at which point the process
exits, killing the detached consumer thread wherever it is.  The model
interleaves the orchestrator's phases with the consumer's steps; `ret`
requires only that the channel has been closed, not that it is drained. -/

inductive OPhase where
  | scanning
  | workersDone
  | closed
  | returned
  deriving DecidableEq

structure OffState (Item : Type) where
  phase : OPhase
  sendersOpen : Bool
  chan : List Item
  consumed : List Item
  offloadDone : Bool
  deriving DecidableEq

def initOff (Item : Type) : OffState Item :=
  ⟨.scanning, true, [], [], false⟩

/-- One step of the orchestration (scan side, orchestrator, or the
detached `open_all` consumer). -/
inductive OffStep {Item : Type} : OffState Item → OffState Item → Prop where
  | send (s : OffState Item) (i : Item)
      (hph : s.phase = .scanning) (hcap : s.chan.length < 16) :
      OffStep s ⟨.scanning, s.sendersOpen, s.chan ++ [i], s.consumed,
        s.offloadDone⟩
  | finishWorkers (s : OffState Item) (hph : s.phase = .scanning) :
      OffStep s ⟨.workersDone, s.sendersOpen, s.chan, s.consumed,
        s.offloadDone⟩
  | closeSenders (s : OffState Item) (hph : s.phase = .workersDone) :
      OffStep s ⟨.closed, false, s.chan, s.consumed, s.offloadDone⟩
  | ret (s : OffState Item) (hph : s.phase = .closed) :
      OffStep s ⟨.returned, s.sendersOpen, s.chan, s.consumed, s.offloadDone⟩
  | consume (s : OffState Item) (i : Item) (rest : List Item)
      (hch : s.chan = i :: rest) (hret : s.phase ≠ .returned) :
      OffStep s ⟨s.phase, s.sendersOpen, rest, s.consumed ++ [i],
        s.offloadDone⟩
  | offloadFinish (s : OffState Item) (hch : s.chan = [])
      (hsend : s.sendersOpen = false) (hret : s.phase ≠ .returned) :
      OffStep s ⟨s.phase, s.sendersOpen, [], s.consumed, true⟩

def OffReach {Item : Type} (s : OffState Item) : Prop :=
  Relation.ReflTransGen OffStep (initOff Item) s

theorem off_close_step {Item : Type} {s s2 : OffState Item}
    (hstep : OffStep s s2)
    (ih : s.sendersOpen = false → s.phase ≠ OPhase.scanning) :
    s2.sendersOpen = false → s2.phase ≠ OPhase.scanning := by
  cases hstep with
  | send i hph hcap =>
    intro hop
    have h0 := ih hop
    rw [hph] at h0
    cases h0 rfl
  | finishWorkers hph =>
    intro _ h
    cases h
  | closeSenders hph =>
    intro _ h
    cases h
  | ret hph =>
    intro _ h
    cases h
  | consume i rest hch hret => exact ih
  | offloadFinish hch hsend hret => exact ih

theorem off_close_inv {Item : Type} (s : OffState Item) (h : OffReach s) :
    s.sendersOpen = false → s.phase ≠ OPhase.scanning := by
  induction h with
  | refl =>
    intro hop
    cases hop
  | tail _ hstep ih => exact off_close_step hstep ih

/-- A complete orchestrator execution in which one item was sent but never
consumed: the detached offload thread never ran before the return. -/
theorem off_returned_undrained_reach :
    OffReach (⟨.returned, false, [0], [], false⟩ : OffState Nat) :=
  Relation.ReflTransGen.head (OffStep.send (initOff Nat) 0 rfl (by decide))
    (Relation.ReflTransGen.head (OffStep.finishWorkers _ rfl)
      (Relation.ReflTransGen.head (OffStep.closeSenders _ rfl)
        (Relation.ReflTransGen.single (OffStep.ret _ rfl))))

/-- C8, as stated, is false in its second half: the run can complete
(`process_all` returns, the process exits) while the channel still holds
an unconsumed item and the offload stage has not terminated — the
`JoinHandle` of the `open_all` thread is discarded and never joined. -/
theorem offload_wait_cex :
    OffReach (⟨.returned, false, [0], [], false⟩ : OffState Nat) ∧
    (⟨.returned, false, [0], [], false⟩ : OffState Nat).phase =
      OPhase.returned ∧
    (⟨.returned, false, [0], [], false⟩ : OffState Nat).chan ≠ [] ∧
    (⟨.returned, false, [0], [], false⟩ : OffState Nat).offloadDone = false :=
  ⟨off_returned_undrained_reach, rfl, by decide, rfl⟩

/-- C8 amended: the orchestration does close the sending side only after
all scan workers have finished (in every reachable state with the senders
closed, the scanning phase is over — no in-flight send can race with the
closure), but the run is NOT held until the offload stage terminates: a
run can reach the returned state with the channel still non-empty and the
offload stage unfinished, because the offload thread is detached and never
joined. -/
theorem offload_close_after_workers :
    (∀ (Item : Type) (s : OffState Item), OffReach s →
      s.sendersOpen = false → s.phase ≠ OPhase.scanning) ∧
    (∃ s : OffState Nat, OffReach s ∧ s.phase = OPhase.returned ∧
      s.chan ≠ [] ∧ s.offloadDone = false) :=
  ⟨fun _ s h => off_close_inv s h,
   ⟨⟨.returned, false, [0], [], false⟩, off_returned_undrained_reach, rfl,
     by decide, rfl⟩⟩

/-! ### RefCell borrow discipline (src/main.rs: `read_files`, `for_file`,
`impl Stats`)

On the single-threaded executor of `process_all`, control switches between
the `1 << 10` workers only at `await` points, so each worker runs atomic
blocks of micro-operations between suspensions.  The only `RefCell`
borrows are the cursor borrow inside `supplier.borrow_mut().next()` — a
temporary dropped at the end of that statement, before `stats.file()`
(a `Cell` update) and before the `for_file(...).await` suspension — and
the counts borrow inside `Stats::add`, taken and dropped within one
synchronous statement.  A schedule is any interleaving of such blocks. -/

inductive MicroOp where
  | borrowCursor
  | releaseCursor
  | borrowCounts
  | releaseCounts
  | pureOp
  deriving DecidableEq

/-- Which `RefCell`s are currently mutably borrowed. -/
structure Borrows where
  cursor : Bool
  counts : Bool
  deriving DecidableEq

def Borrows.free : Borrows := ⟨false, false⟩

/-- Run one micro-operation; `none` is a `RefCell` borrow failure
(`BorrowMutError`, a runtime abort). -/
def runOp (b : Borrows) : MicroOp → Option Borrows
  | .borrowCursor => if b.cursor then none else some ⟨true, b.counts⟩
  | .releaseCursor => some ⟨false, b.counts⟩
  | .borrowCounts => if b.counts then none else some ⟨b.cursor, true⟩
  | .releaseCounts => some ⟨b.cursor, false⟩
  | .pureOp => some b

def runBlock (b : Borrows) : List MicroOp → Option Borrows
  | [] => some b
  | op :: rest =>
    match runOp b op with
    | none => none
    | some b2 => runBlock b2 rest

/-- `read_files` loop body up to the `for_file` await:
`supplier.borrow_mut().next()` (borrow, call, drop at statement end) then
`stats.file()` on the `Cell`. -/
def pullBlock : List MicroOp :=
  [.borrowCursor, .pureOp, .releaseCursor, .pureOp]

/-- Continuations of `for_file` after the `File::open` / `read_exact`
awaits: no borrows. -/
def fileOpBlock : List MicroOp := [.pureOp]

/-- The classification continuation of `for_file`: `count.add(format)`
takes and drops the counts borrow within one statement. -/
def classifyBlock : List MicroOp :=
  [.pureOp, .borrowCounts, .pureOp, .releaseCounts]

/-- The `opener.send(..).await` continuation: no borrows. -/
def sendBlock : List MicroOp := [.pureOp]

/-- Every atomic block a `read_files` worker can run between awaits. -/
def workerBlocks : List (List MicroOp) :=
  [pullBlock, fileOpBlock, classifyBlock, sendBlock]

def runBlocks (b : Borrows) : List (List MicroOp) → Option Borrows
  | [] => some b
  | blk :: rest =>
    match runBlock b blk with
    | none => none
    | some b2 => runBlocks b2 rest

theorem block_balanced :
    ∀ blk ∈ workerBlocks, runBlock Borrows.free blk = some Borrows.free := by
  decide

/-- C10: no borrow of the shared `RefCell` state is held across a
suspension point — every atomic block of a worker begins and ends with all
borrows released — so under every schedule (any interleaving of the atomic
blocks of any number of concurrently scheduled workers, 1024 included) no
`RefCell` borrow operation ever fails: execution never hits the `none`
(borrow-panic) case and ends with all borrows free. -/
theorem no_borrow_panic (sched : List (List MicroOp))
    (h : ∀ blk ∈ sched, blk ∈ workerBlocks) :
    runBlocks Borrows.free sched = some Borrows.free := by
  induction sched with
  | nil => rfl
  | cons blk rest ih =>
    have hb : runBlock Borrows.free blk = some Borrows.free :=
      block_balanced blk (h blk (by simp))
    rw [runBlocks, hb]
    exact ih (fun b hb2 => h b (by simp [hb2]))

theorem no_borrow_panic_witness :
    (∀ blk ∈ [pullBlock, fileOpBlock, classifyBlock, sendBlock, pullBlock],
      blk ∈ workerBlocks) ∧
    runBlocks Borrows.free
      [pullBlock, fileOpBlock, classifyBlock, sendBlock, pullBlock] =
      some Borrows.free :=
  ⟨by decide,
   no_borrow_panic [pullBlock, fileOpBlock, classifyBlock, sendBlock, pullBlock]
     (by decide)⟩

end Undump
